import Mathlib

/-!
Verification of the pdf-translator-ai backend core: the chunker
(`backend/app/services/chunker.py`), the job store
(`backend/app/models/job.py`), the retrying translator
(`backend/app/services/translator.py`) and the pipeline orchestrator
(`backend/app/main.py`), shallowly embedded over `List Char` text and
explicit state.
-/

namespace PdfTranslator

/-! ## Text primitives modeling Python `str` operations over `List Char`

Python `str.strip()` / `str.split()` treat ASCII whitespace uniformly; we
model the ASCII whitespace set (space, tab, newline, carriage return,
vertical tab, form feed), which is what the texts at hand contain. -/

def isSpace (c : Char) : Bool :=
  c = ' ' || c = '\t' || c = '\n' || c = '\r' || c = '\x0b' || c = '\x0c'

/-- `s.lstrip()`: drop leading whitespace. -/
def lstrip (s : List Char) : List Char := s.dropWhile isSpace

/-- `s.rstrip()`: drop trailing whitespace. -/
def rstrip (s : List Char) : List Char := (s.reverse.dropWhile isSpace).reverse

/-- Python `s.strip()`: drop leading and trailing whitespace. -/
def strip (s : List Char) : List Char := lstrip (rstrip s)

/-- Accumulator-based splitter behind `words`; `acc` holds the reversed
current word. -/
def wordsAux : List Char → List Char → List (List Char)
  | [], acc => if acc = [] then [] else [acc.reverse]
  | c :: cs, acc =>
    if isSpace c then
      (if acc = [] then wordsAux cs [] else acc.reverse :: wordsAux cs [])
    else wordsAux cs (c :: acc)

/-- Python `s.split()` with no separator: words of `s`, splitting on runs of
whitespace, with no empty words. -/
def words (s : List Char) : List (List Char) := wordsAux s []

/-- Python `s.split("\n\n")`: split on each non-overlapping, leftmost
occurrence of the two-character separator. -/
def splitSep : List Char → List (List Char)
  | [] => [[]]
  | [c] => [[c]]
  | c1 :: c2 :: rest =>
    if c1 = '\n' && c2 = '\n' then
      [] :: splitSep rest
    else
      match splitSep (c2 :: rest) with
      | [] => [[c1]]
      | w :: ws => (c1 :: w) :: ws

/-- Python `"\n\n".join(ps)`. -/
def joinSep (ps : List (List Char)) : List Char :=
  List.intercalate ['\n', '\n'] ps

/-- Python `" ".join(ws)`. -/
def joinSpace (ws : List (List Char)) : List Char :=
  List.intercalate [' '] ws

/-! ## Chunker (`backend/app/services/chunker.py`) -/

/-- The exceptions `chunk_pages` can raise: its own `ChunkingError`, or the
`ValueError` Python raises from `range(0, n, 0)` when `max_words = 0`. -/
inductive ChunkExc where
  | chunkingError (msg : String)
  | valueError
deriving DecidableEq, Repr

/-- Python `range(0, stop, step)` for `step > 0`: the starts
`0, step, 2*step, ...` below `stop` (`range` with step 0 instead raises
`ValueError`, handled in `chunk_pages`). -/
def pyRangeStarts (stop step : Nat) : List Nat :=
  (List.range ((stop + step - 1) / step)).map (fun i => i * step)

/-- The slicing loop `for i in range(0, word_count, max_words):
chunks.append(" ".join(words[i:i + max_words]))` of an oversized
paragraph: `words[i:i + max_words]` is `(ws.drop i).take max_words`. -/
def sliceGroups (max_words : Nat) (ws : List (List Char)) :
    List (List Char) :=
  (pyRangeStarts ws.length max_words).map
    (fun i => joinSpace ((ws.drop i).take max_words))

/-- The paragraph-packing loop of `chunk_pages`, carrying `current_chunk`
(in order) and `current_word_count`, and emitting chunks in the order the
Python code appends them to `chunks`. -/
def packParas (max_words : Nat) :
    List (List Char) → List (List Char) → Nat → List (List Char)
  | [], current, _ =>
    if current = [] then [] else [joinSep current]
  | para :: rest, current, count =>
    let ws := words para
    let word_count := ws.length
    if word_count > max_words then
      sliceGroups max_words ws ++ packParas max_words rest current count
    else if count + word_count ≤ max_words then
      packParas max_words rest (current ++ [para]) (count + word_count)
    else
      joinSep current :: packParas max_words rest [para] word_count

/-- `chunk_pages(pages, max_words)` from `chunker.py`, over `List Char`
pages.  Mirrors the source: empty page list raises `ChunkingError`; pages
are stripped, blank pages dropped, joined with a blank line; a blank result
raises `ChunkingError`; the text is split into paragraphs on `"\n\n"`,
blanks dropped, and packed by `packParas`.  When `max_words = 0` every
(necessarily non-blank) paragraph takes the oversized branch whose
`range(0, word_count, 0)` raises `ValueError`. -/
def chunk_pages (pages : List (List Char)) (max_words : Nat := 900) :
    Except ChunkExc (List (List Char)) :=
  if pages = [] then
    .error (.chunkingError "No pages provided for chunking")
  else
    let full_text := joinSep ((pages.filter (fun p => strip p ≠ [])).map strip)
    if strip full_text = [] then
      .error (.chunkingError "PDF contains no extractable text")
    else
      let paragraphs :=
        (splitSep full_text).map strip |>.filter (fun p => p ≠ [])
      if max_words = 0 then
        .error .valueError
      else
        .ok (packParas max_words paragraphs [] 0)

/-! ## Lemmas about `words`, `strip` and the joins -/

theorem wordsAux_append_space {c : Char} (hc : isSpace c) (a b : List Char) :
    ∀ acc, wordsAux (a ++ c :: b) acc = wordsAux a acc ++ wordsAux b [] := by
  induction a with
  | nil =>
    intro acc
    by_cases hacc : acc = [] <;> simp [wordsAux, hc, hacc]
  | cons x xs ih =>
    intro acc
    by_cases hx : isSpace x
    · by_cases hacc : acc = [] <;> simp [wordsAux, hx, hacc, ih]
    · simp [wordsAux, hx, ih]

theorem words_append_space {c : Char} (hc : isSpace c) (a b : List Char) :
    words (a ++ c :: b) = words a ++ words b :=
  wordsAux_append_space hc a b []

theorem words_space_cons {c : Char} (hc : isSpace c) (b : List Char) :
    words (c :: b) = words b := by
  simpa using words_append_space hc [] b

theorem words_nil : words [] = [] := by simp [words, wordsAux]

theorem words_of_all_space {s : List Char} (h : ∀ c ∈ s, isSpace c) :
    words s = [] := by
  induction s with
  | nil => exact words_nil
  | cons x xs ih =>
    rw [words_space_cons (h x (by simp)) xs]
    exact ih fun c hc => h c (by simp [hc])

theorem words_allspace_append {sp : List Char} (h : ∀ c ∈ sp, isSpace c)
    (b : List Char) : words (sp ++ b) = words b := by
  induction sp with
  | nil => simp
  | cons x xs ih =>
    have : words (x :: (xs ++ b)) = words (xs ++ b) :=
      words_space_cons (h x (by simp)) _
    simpa [this] using ih fun c hc => h c (by simp [hc])

theorem words_append_allspace (a : List Char) {sp : List Char}
    (h : ∀ c ∈ sp, isSpace c) : words (a ++ sp) = words a := by
  induction sp with
  | nil => simp
  | cons x xs _ =>
    rw [words_append_space (h x (by simp)) a xs,
      words_of_all_space (s := xs) (fun c hc => h c (by simp [hc])),
      List.append_nil]

theorem words_lstrip (s : List Char) : words (lstrip s) = words s := by
  conv_rhs => rw [← List.takeWhile_append_dropWhile (p := isSpace) (l := s)]
  rw [lstrip,
    words_allspace_append (fun c hc => List.mem_takeWhile_imp hc) _]

/-- A string is its right-stripped part followed by its trailing spaces. -/
theorem rstrip_append_spaces (s : List Char) :
    s = rstrip s ++ (s.reverse.takeWhile isSpace).reverse := by
  conv_lhs => rw [← List.reverse_reverse s,
    ← List.takeWhile_append_dropWhile (p := isSpace) (l := s.reverse)]
  rw [List.reverse_append, rstrip]

theorem words_rstrip (s : List Char) : words (rstrip s) = words s := by
  conv_rhs => rw [rstrip_append_spaces s]
  rw [words_append_allspace]
  intro c hc
  exact List.mem_takeWhile_imp (List.mem_reverse.mp hc)

theorem words_strip (s : List Char) : words (strip s) = words s := by
  rw [strip, words_lstrip, words_rstrip]

theorem mem_rstrip {c : Char} {s : List Char} (h : c ∈ rstrip s) : c ∈ s := by
  rw [rstrip] at h
  exact List.mem_reverse.mp ((List.dropWhile_sublist _).mem (List.mem_reverse.mp h))

theorem mem_strip {c : Char} {s : List Char} (h : c ∈ strip s) : c ∈ s := by
  rw [strip, lstrip] at h
  exact mem_rstrip ((List.dropWhile_sublist _).mem h)

theorem strip_eq_nil_iff (s : List Char) :
    strip s = [] ↔ ∀ c ∈ s, isSpace c := by
  constructor
  · intro h c hc
    have hall : ∀ d ∈ rstrip s, isSpace d :=
      List.dropWhile_eq_nil_iff.mp h
    rw [rstrip_append_spaces s] at hc
    rcases List.mem_append.mp hc with h1 | h1
    · exact hall c h1
    · exact List.mem_takeWhile_imp (List.mem_reverse.mp h1)
  · intro h
    exact List.dropWhile_eq_nil_iff.mpr fun c hc => h c (mem_rstrip hc)

theorem joinSep_nil : joinSep [] = [] := by simp [joinSep, List.intercalate]

theorem joinSep_single (p : List Char) : joinSep [p] = p := by
  simp [joinSep, List.intercalate, List.intersperse]

theorem joinSep_cons_cons (p q : List Char) (r : List (List Char)) :
    joinSep (p :: q :: r) = p ++ '\n' :: '\n' :: joinSep (q :: r) := by
  simp [joinSep, List.intercalate, List.intersperse]

theorem words_joinSep (ps : List (List Char)) :
    words (joinSep ps) = ps.flatMap words := by
  induction ps with
  | nil => simp [joinSep_nil, words_nil]
  | cons p rest ih =>
    cases rest with
    | nil => simp [joinSep_single]
    | cons q r =>
      rw [joinSep_cons_cons,
        words_append_space (by decide : isSpace '\n') p _,
        words_space_cons (by decide : isSpace '\n') _, ih]
      simp

/-- Every word produced by `words` is nonempty and contains no whitespace. -/
theorem wordsAux_wf (s : List Char) :
    ∀ acc, (∀ c ∈ acc, ¬ isSpace c) →
      ∀ w ∈ wordsAux s acc, w ≠ [] ∧ ∀ c ∈ w, ¬ isSpace c := by
  induction s with
  | nil =>
    intro acc hacc w hw
    by_cases h : acc = [] <;> simp [wordsAux, h] at hw
    subst hw
    refine ⟨by simpa using h, fun c hc => hacc c (by simpa using hc)⟩
  | cons x xs ih =>
    intro acc hacc w hw
    by_cases hx : isSpace x
    · by_cases h : acc = []
      · exact ih [] (by simp) w (by simpa [wordsAux, hx, h] using hw)
      · rcases (by simpa [wordsAux, hx, h] using hw :
            w = acc.reverse ∨ w ∈ wordsAux xs []) with h1 | h1
        · subst h1
          exact ⟨by simpa using h, fun c hc => hacc c (by simpa using hc)⟩
        · exact ih [] (by simp) w h1
    · refine ih (x :: acc) ?_ w (by simpa [wordsAux, hx] using hw)
      intro c hc
      rcases List.mem_cons.mp hc with h1 | h1
      · subst h1; exact hx
      · exact hacc c h1

theorem words_wf (s : List Char) :
    ∀ w ∈ words s, w ≠ [] ∧ ∀ c ∈ w, ¬ isSpace c :=
  wordsAux_wf s [] (by simp)

/-- `wordsAux` on a nonempty, space-free string yields one word. -/
theorem wordsAux_no_space (w : List Char) (hne : w ≠ [])
    (h : ∀ c ∈ w, ¬ isSpace c) :
    ∀ acc, wordsAux w acc = [acc.reverse ++ w] := by
  induction w with
  | nil => exact absurd rfl hne
  | cons x xs ih =>
    intro acc
    have hx : ¬ isSpace x := h x (by simp)
    cases xs with
    | nil => simp [wordsAux, hx]
    | cons y ys =>
      rw [show wordsAux (x :: y :: ys) acc = wordsAux (y :: ys) (x :: acc) by
        simp [wordsAux, hx]]
      rw [ih (by simp) (fun c hc => h c (by simp [List.mem_cons.mp hc])) (x :: acc)]
      simp

theorem words_single (w : List Char) (hne : w ≠ [])
    (h : ∀ c ∈ w, ¬ isSpace c) : words w = [w] := by
  simpa using wordsAux_no_space w hne h []

theorem joinSpace_nil : joinSpace [] = [] := by
  simp [joinSpace, List.intercalate]

theorem joinSpace_single (w : List Char) : joinSpace [w] = w := by
  simp [joinSpace, List.intercalate, List.intersperse]

theorem joinSpace_cons_cons (w v : List Char) (r : List (List Char)) :
    joinSpace (w :: v :: r) = w ++ ' ' :: joinSpace (v :: r) := by
  simp [joinSpace, List.intercalate, List.intersperse]

/-- `" ".join(ws).split()` gives back `ws` when the `ws` are genuine words. -/
theorem words_joinSpace (ws : List (List Char))
    (h : ∀ w ∈ ws, w ≠ [] ∧ ∀ c ∈ w, ¬ isSpace c) :
    words (joinSpace ws) = ws := by
  induction ws with
  | nil => simp [joinSpace_nil, words_nil]
  | cons w rest ih =>
    cases rest with
    | nil =>
      rw [joinSpace_single]
      exact words_single w (h w (by simp)).1 (h w (by simp)).2
    | cons v r =>
      rw [joinSpace_cons_cons,
        words_append_space (by decide : isSpace ' ') w _,
        words_single w (h w (by simp)).1 (h w (by simp)).2,
        ih (fun u hu => h u (by simp [hu]))]
      simp

/-- Each slice of an oversized paragraph holds at most `max_words` words. -/
theorem sliceGroups_bound (max_words : Nat) (ws : List (List Char)) :
    (∀ w ∈ ws, w ≠ [] ∧ ∀ c ∈ w, ¬ isSpace c) →
    ∀ chunk ∈ sliceGroups max_words ws,
      (words chunk).length ≤ max_words := by
  intro h chunk hc
  obtain ⟨i, -, rfl⟩ := List.mem_map.mp hc
  rw [words_joinSpace _ (fun w hw =>
    h w ((List.drop_subset _ _) ((List.take_subset _ _) hw)))]
  simp [List.length_take]

/-- The running `current_word_count` equals the word count of the pending
chunk, so every chunk the packing loop emits holds at most `max_words`
words. -/
theorem packParas_bound (max_words : Nat) (paras : List (List Char)) :
    ∀ current count,
      count = (current.map (fun p => (words p).length)).sum →
      count ≤ max_words →
      ∀ chunk ∈ packParas max_words paras current count,
        (words chunk).length ≤ max_words := by
  induction paras with
  | nil =>
    intro current count hcount hle chunk hc
    by_cases h : current = [] <;> simp [packParas, h] at hc
    subst hc
    rw [words_joinSep]
    calc (current.flatMap words).length
        = (current.map (fun p => (words p).length)).sum := by
          simp [List.length_flatMap, Function.comp_def]
      _ ≤ max_words := hcount ▸ hle
  | cons para rest ih =>
    intro current count hcount hle chunk hc
    rw [packParas] at hc
    by_cases h1 : (words para).length > max_words
    · rw [if_pos h1] at hc
      rcases List.mem_append.mp hc with h2 | h2
      · exact sliceGroups_bound max_words (words para)
          (words_wf para) chunk h2
      · exact ih current count hcount hle chunk h2
    · rw [if_neg h1] at hc
      by_cases h2 : count + (words para).length ≤ max_words
      · rw [if_pos h2] at hc
        refine ih _ _ ?_ h2 chunk hc
        simp [hcount]
      · rw [if_neg h2] at hc
        rcases List.mem_cons.mp hc with h3 | h3
        · subst h3
          rw [words_joinSep]
          calc (current.flatMap words).length
              = (current.map (fun p => (words p).length)).sum := by
                simp [List.length_flatMap, Function.comp_def]
            _ ≤ max_words := hcount ▸ hle
        · exact ih [para] (words para).length (by simp) (by omega) chunk h3

/-- A page splits as leading spaces, its stripped core, trailing spaces. -/
theorem strip_decomp (p : List Char) :
    p = (rstrip p).takeWhile isSpace ++ strip p
        ++ (p.reverse.takeWhile isSpace).reverse := by
  conv_lhs => rw [rstrip_append_spaces p]
  rw [show (rstrip p).takeWhile isSpace ++ strip p = rstrip p by
    rw [strip, lstrip, List.takeWhile_append_dropWhile]]

theorem mem_strip_of_not_space {c : Char} {p : List Char}
    (hc : c ∈ p) (hns : ¬ isSpace c) : c ∈ strip p := by
  rw [strip_decomp p] at hc
  rcases List.mem_append.mp hc with h1 | h1
  · rcases List.mem_append.mp h1 with h2 | h2
    · exact absurd (List.mem_takeWhile_imp h2) hns
    · exact h2
  · exact absurd (List.mem_takeWhile_imp (List.mem_reverse.mp h1)) hns

theorem mem_joinSep {c : Char} {l : List Char} {ls : List (List Char)}
    (hl : l ∈ ls) (hc : c ∈ l) : c ∈ joinSep ls := by
  induction ls with
  | nil => cases hl
  | cons x r ih =>
    rcases List.mem_cons.mp hl with h1 | h1
    · subst h1
      cases r with
      | nil => rwa [joinSep_single]
      | cons y r' => rw [joinSep_cons_cons]; exact List.mem_append.mpr (.inl hc)
    · cases r with
      | nil => cases h1
      | cons y r' =>
        rw [joinSep_cons_cons]
        exact List.mem_append.mpr (.inr (by simp [ih h1]))

theorem strip_nil : strip ([] : List Char) = [] := rfl

instance {e a : Type} [DecidableEq e] [DecidableEq a] :
    DecidableEq (Except e a)
  | .error x, .error y =>
    if h : x = y then .isTrue (by rw [h]) else .isFalse (by simp [h])
  | .error _, .ok _ => .isFalse (by simp)
  | .ok _, .error _ => .isFalse (by simp)
  | .ok x, .ok y =>
    if h : x = y then .isTrue (by rw [h]) else .isFalse (by simp [h])

/-! ## Claim theorems for the chunker -/

/-- C5: for every input and every `max_words > 0`, no chunk returned by
`chunk_pages` holds more than `max_words` words.  This is stronger than the
claim, which additionally allows a whole-paragraph slice of the final group
of an oversized paragraph to exceed the bound: no such exception is needed,
since every slice is a group of at most `max_words` words. -/
theorem chunk_pages_word_bound (pages : List (List Char)) (max_words : Nat)
    (hmw : 0 < max_words) (chunks : List (List Char))
    (hok : chunk_pages pages max_words = .ok chunks) :
    ∀ chunk ∈ chunks, (words chunk).length ≤ max_words := by
  simp only [chunk_pages] at hok
  split at hok
  · cases hok
  · split at hok
    · cases hok
    · split at hok
      · cases hok
      · cases hok
        exact packParas_bound max_words _ [] 0 (by simp) (Nat.zero_le _)

/-- C5 witness: applying the bound at `pages = ["a b"]`, `max_words = 1`
(the oversized paragraph is sliced into the two chunks `"a"`, `"b"`). -/
theorem chunk_pages_word_bound_witness :
    (words ['a']).length ≤ 1 :=
  chunk_pages_word_bound [['a', ' ', 'b']] 1 (by decide) [['a'], ['b']]
    (by decide) ['a'] (by decide)

/-- C9: with a positive word bound (the default is 900), `chunk_pages`
raises exactly when no text remains after trimming: on the empty page list
and on page lists whose pages are all empty or whitespace-only; on any
input with a non-whitespace page it returns normally.  (Both error sites
raise `ChunkingError`.) -/
theorem chunk_pages_error_iff (pages : List (List Char)) (max_words : Nat)
    (hmw : 0 < max_words) :
    (∃ e, chunk_pages pages max_words = .error e) ↔
      ∀ p ∈ pages, strip p = [] := by
  constructor
  · rintro ⟨e, he⟩ p hp
    by_contra hps
    -- a non-blank page forces the success branch
    have hne : pages ≠ [] := by rintro rfl; cases hp
    obtain ⟨c, hcp, hcs⟩ : ∃ c ∈ p, ¬ isSpace c := by
      by_contra hall
      push_neg at hall
      exact hps ((strip_eq_nil_iff p).mpr (by simpa using hall))
    have hmem : strip p ∈ (pages.filter (fun q => strip q ≠ [])).map strip :=
      List.mem_map_of_mem strip (List.mem_filter.mpr ⟨hp, by simpa using hps⟩)
    have hcfull :
        c ∈ joinSep ((pages.filter (fun q => strip q ≠ [])).map strip) :=
      mem_joinSep hmem (mem_strip_of_not_space hcp hcs)
    have hft :
        strip (joinSep ((pages.filter (fun q => strip q ≠ [])).map strip))
          ≠ [] := by
      intro h0
      exact hcs ((strip_eq_nil_iff _).mp h0 c hcfull)
    rw [chunk_pages, if_neg hne] at he
    simp only [if_neg hft, if_neg (Nat.pos_iff_ne_zero.mp hmw)] at he
    cases he
  · intro hall
    by_cases hne : pages = []
    · exact ⟨_, by rw [chunk_pages, if_pos hne]⟩
    · have hfil : pages.filter (fun q => strip q ≠ []) = [] :=
        List.filter_eq_nil_iff.mpr (fun q hq => by simpa using hall q hq)
      refine ⟨.chunkingError "PDF contains no extractable text", ?_⟩
      rw [chunk_pages, if_neg hne, hfil]
      simp [joinSep_nil, strip_nil]

/-- C9 witness: at `pages = ["", "   "]`, `max_words = 900`, both sides of
the equivalence hold — `chunk_pages` raises `ChunkingError`. -/
theorem chunk_pages_error_iff_witness :
    ∃ e, chunk_pages [[], [' ', ' ', ' ']] 900 = .error e :=
  (chunk_pages_error_iff [[], [' ', ' ', ' ']] 900 (by decide)).mpr (by decide)

/-- C1 fails on the code: when an oversized paragraph follows paragraphs
already accumulated in `current_chunk`, its slices are appended to `chunks`
before the pending chunk is flushed, so the words come out reordered.  At
`pages = ["a\n\nb c d"]`, `max_words = 2` the code returns
`["b c", "d", "a"]` — words `b c d a` — while the trimmed input reads
`a b c d`. -/
theorem chunk_pages_reorders_words :
    chunk_pages [['a', '\n', '\n', 'b', ' ', 'c', ' ', 'd']] 2 =
      .ok [['b', ' ', 'c'], ['d'], ['a']] ∧
    ([['b', ' ', 'c'], ['d'], ['a']].flatMap words
      = [['b'], ['c'], ['d'], ['a']]) ∧
    ((([['a', '\n', '\n', 'b', ' ', 'c', ' ', 'd']].filter
        (fun p => strip p ≠ [])).map strip).flatMap words
      = [['a'], ['b'], ['c'], ['d']]) ∧
    [['b'], ['c'], ['d'], ['a']] ≠ [['a'], ['b'], ['c'], ['d']] := by
  refine ⟨by decide, by decide, by decide, by decide⟩

/-! ## Datetimes (`datetime.datetime` as used by `job.py`)

A naive `datetime` is seven fields.  `isoformat`/`fromisoformat` are
modeled character-exactly on the canonical format `datetime.isoformat()`
emits (`YYYY-MM-DDTHH:MM:SS[.ffffff]`, the fraction omitted when the
microsecond is 0); Python's parser accepts a superset of this format, but
on the image of the encoder the two agree. -/

structure DT where
  year : Nat
  month : Nat
  day : Nat
  hour : Nat
  minute : Nat
  second : Nat
  microsecond : Nat
deriving DecidableEq, Repr

/-- The big-endian decimal digit characters of `n` (empty for 0). -/
def digitChars (n : Nat) : List Char :=
  ((Nat.digits 10 n).map (fun d => Char.ofNat (48 + d))).reverse

/-- `n` printed in decimal, zero-padded to width `w` (as `%0wd`). -/
def padDigits (w n : Nat) : List Char :=
  List.replicate (w - (Nat.digits 10 n).length) '0' ++ digitChars n

def isoformat (t : DT) : List Char :=
  padDigits 4 t.year ++ '-' ::
    (padDigits 2 t.month ++ '-' ::
      (padDigits 2 t.day ++ 'T' ::
        (padDigits 2 t.hour ++ ':' ::
          (padDigits 2 t.minute ++ ':' ::
            (padDigits 2 t.second ++
              (if t.microsecond = 0 then []
               else '.' :: padDigits 6 t.microsecond))))))

/-- Decimal value of a digit string. -/
def decDigits (cs : List Char) : Nat :=
  cs.foldl (fun a c => 10 * a + (c.toNat - 48)) 0

/-- Read exactly `w` decimal digits. -/
def readN (w : Nat) (cs : List Char) : Option (Nat × List Char) :=
  let pre := cs.take w
  if pre.length = w && pre.all (fun c => c.isDigit) then
    some (decDigits pre, cs.drop w)
  else none

def expectChar (c : Char) : List Char → Option (List Char)
  | [] => none
  | x :: rest => if x = c then some rest else none

/-- The optional `.ffffff` microsecond suffix: absent means 0. -/
def parseFrac (cs : List Char) : Option Nat :=
  if cs = [] then some 0
  else
    match expectChar '.' cs with
    | none => none
    | some rest =>
      match readN 6 rest with
      | some (us, rest2) => if rest2 = [] then some us else none
      | none => none

def fromisoformat (cs : List Char) : Option DT := do
  let (y, cs) ← readN 4 cs
  let cs ← expectChar '-' cs
  let (mo, cs) ← readN 2 cs
  let cs ← expectChar '-' cs
  let (d, cs) ← readN 2 cs
  let cs ← expectChar 'T' cs
  let (h, cs) ← readN 2 cs
  let cs ← expectChar ':' cs
  let (mi, cs) ← readN 2 cs
  let cs ← expectChar ':' cs
  let (sec, cs) ← readN 2 cs
  let us ← parseFrac cs
  some ⟨y, mo, d, h, mi, sec, us⟩

/-- Field bounds under which the fixed-width rendering is parseable (every
real `datetime` satisfies them). -/
def DT.Valid (t : DT) : Prop :=
  t.year < 10000 ∧ t.month < 100 ∧ t.day < 100 ∧ t.hour < 100 ∧
    t.minute < 100 ∧ t.second < 100 ∧ t.microsecond < 1000000

instance (t : DT) : Decidable t.Valid := by unfold DT.Valid; infer_instance

/-- Python `datetime` comparison: field-lexicographic. -/
def dtLt (a b : DT) : Bool :=
  if a.year ≠ b.year then a.year < b.year
  else if a.month ≠ b.month then a.month < b.month
  else if a.day ≠ b.day then a.day < b.day
  else if a.hour ≠ b.hour then a.hour < b.hour
  else if a.minute ≠ b.minute then a.minute < b.minute
  else if a.second ≠ b.second then a.second < b.second
  else a.microsecond < b.microsecond

/-- Days since 0000-03-01 in the proleptic Gregorian calendar (Hinnant's
`days_from_civil`, specialized to `year ≥ 1`). -/
def daysFromCivil (y m d : Nat) : Nat :=
  let y' := if m ≤ 2 then y - 1 else y
  let era := y' / 400
  let yoe := y' % 400
  let mp := if m > 2 then m - 3 else m + 9
  let doy := (153 * mp + 2) / 5 + (d - 1)
  let doe := yoe * 365 + yoe / 4 - yoe / 100 + doy
  era * 146097 + doe

/-- Inverse of `daysFromCivil` (Hinnant's `civil_from_days`). -/
def civilFromDays (z : Nat) : Nat × Nat × Nat :=
  let era := z / 146097
  let doe := z % 146097
  let yoe := (doe - doe / 1460 + doe / 36524 - doe / 146096) / 365
  let y := yoe + era * 400
  let doy := doe - (365 * yoe + yoe / 4 - yoe / 100)
  let mp := (5 * doy + 2) / 153
  let d := doy - (153 * mp + 2) / 5 + 1
  let m := if mp < 10 then mp + 3 else mp - 9
  (if m ≤ 2 then y + 1 else y, m, d)

def toMicros (t : DT) : Nat :=
  daysFromCivil t.year t.month t.day * 86400000000 +
    (((t.hour * 60 + t.minute) * 60 + t.second) * 1000000 + t.microsecond)

def fromMicros (n : Nat) : DT :=
  let z := n / 86400000000
  let rem := n % 86400000000
  let c := civilFromDays z
  let totsec := rem / 1000000
  ⟨c.1, c.2.1, c.2.2, totsec / 3600, totsec % 3600 / 60, totsec % 60,
    rem % 1000000⟩

/-- `now - timedelta(hours=h)` (exact calendar arithmetic; `Nat`
subtraction clamps below year 1, where Python would raise instead). -/
def dtSubHours (h : Nat) (t : DT) : DT :=
  fromMicros (toMicros t - h * 3600000000)

/-! ## Job store state (`backend/app/models/job.py`)

`JOB_STORE` is a string-keyed dict of job dicts; each mutation persists
the record to `uploads/.jobs/<id>.json` before returning.  We model the
dict as an association list, the metadata directory as an association
list of serialized records (the `json` round-trip is the identity on this
flat shape — JSON preserves strings, integers, booleans and null
exactly), and the `uploads`/`outputs` directories as lists of the job ids
whose `<id>.pdf` / `<id>_translated.pdf` file exists. -/

structure JobRecord where
  status : String
  progress : Nat
  message : String
  created_at : DT
  original_filename : Option String
  downloaded : Bool
  completed_at : Option DT := none
  failed_at : Option DT := none
deriving DecidableEq, Repr

/-- A job record as serialized by `_save_job_to_disk`: the same fields
with the `datetime` values replaced by their `isoformat` strings. -/
structure StoredJob where
  status : String
  progress : Nat
  message : String
  created_at : List Char
  original_filename : Option String
  downloaded : Bool
  completed_at : Option (List Char)
  failed_at : Option (List Char)
deriving DecidableEq, Repr

def encode_job (r : JobRecord) : StoredJob :=
  ⟨r.status, r.progress, r.message, isoformat r.created_at,
    r.original_filename, r.downloaded, r.completed_at.map isoformat,
    r.failed_at.map isoformat⟩

/-- `_load_job_from_disk`'s date conversion: `fromisoformat` each date
field that is present (a parse failure raises, caught as a `None`
result — modeled by the `Option` bind). -/
def decode_date_opt : Option (List Char) → Option (Option DT)
  | none => some none
  | some s => (fromisoformat s).map some

def decode_job (sj : StoredJob) : Option JobRecord := do
  let created ← fromisoformat sj.created_at
  let completed ← decode_date_opt sj.completed_at
  let failed ← decode_date_opt sj.failed_at
  some ⟨sj.status, sj.progress, sj.message, created, sj.original_filename,
    sj.downloaded, completed, failed⟩

structure SysState where
  mem : List (String × JobRecord)
  disk : List (String × StoredJob)
  uploads : List String
  outputs : List String
deriving DecidableEq, Repr

/-- Dict write `d[k] = v`. -/
def setEntry {α : Type} (k : String) (v : α) (l : List (String × α)) :
    List (String × α) :=
  (k, v) :: l.filter (fun kv => kv.1 ≠ k)

/-- `_save_job_to_disk(job_id)`: serialize the in-memory record (if any)
and overwrite `uploads/.jobs/<id>.json`. -/
def save_job_to_disk (job_id : String) (s : SysState) : SysState :=
  match s.mem.lookup job_id with
  | none => s
  | some r => { s with disk := setEntry job_id (encode_job r) s.disk }

/-- `_load_job_from_disk(job_id)`. -/
def load_job_from_disk (job_id : String) (s : SysState) : Option JobRecord :=
  (s.disk.lookup job_id).bind decode_job

/-- Shared shape of the guarded mutators: `if job_id in JOB_STORE:`
update the record in place, then `_save_job_to_disk(job_id)`. -/
def setJob (job_id : String) (f : JobRecord → JobRecord) (s : SysState) :
    SysState :=
  if (s.mem.lookup job_id).isSome then
    save_job_to_disk job_id
      { s with
        mem := s.mem.map
          (fun kv => if kv.1 = job_id then (kv.1, f kv.2) else kv) }
  else s

def create_job (now : DT) (job_id : String) (original_filename : Option String)
    (s : SysState) : SysState :=
  save_job_to_disk job_id
    { s with
      mem := setEntry job_id
        { status := "started", progress := 0, message := "Job created",
          created_at := now, original_filename := original_filename,
          downloaded := false } s.mem }

def update_job (job_id : String) (progress : Nat) (message : String)
    (s : SysState) : SysState :=
  setJob job_id (fun r => { r with progress := progress, message := message }) s

def complete_job (now : DT) (job_id : String) (s : SysState) : SysState :=
  setJob job_id (fun r =>
    { r with status := "completed", progress := 100,
             message := "Translation completed successfully",
             completed_at := some now }) s

def fail_job (now : DT) (job_id : String) (message : String) (s : SysState) :
    SysState :=
  setJob job_id (fun r =>
    { r with status := "failed", message := message,
             failed_at := some now }) s

def mark_downloaded (job_id : String) (s : SysState) : SysState :=
  setJob job_id (fun r => { r with downloaded := true }) s

/-- `cleanup_job_files(job_id)`: remove the job's upload, output and
metadata files and its in-memory entry.  Every `os.remove` in the source
is guarded by `os.path.exists` and wrapped in `try/except`, so removing
an already-absent file leaves that component unchanged and nothing
propagates to the caller; on id-keyed sets both the guarded and the
unguarded removal are this filter. -/
def cleanup_job_files (job_id : String) (s : SysState) : SysState :=
  { mem := s.mem.filter (fun kv => kv.1 ≠ job_id),
    disk := s.disk.filter (fun kv => kv.1 ≠ job_id),
    uploads := s.uploads.filter (fun i => i ≠ job_id),
    outputs := s.outputs.filter (fun i => i ≠ job_id) }

/-- `cleanup_old_jobs()`: under the lock, collect the ids whose
`created_at` is older than `now - timedelta(hours=CLEANUP_AFTER_HOURS)`
(`CLEANUP_AFTER_HOURS = 2`); then clean each collected job. -/
def cleanup_old_jobs (now : DT) (s : SysState) : SysState :=
  let cutoff := dtSubHours 2 now
  let jobs_to_cleanup :=
    (s.mem.filter (fun kv => dtLt kv.2.created_at cutoff)).map (fun kv => kv.1)
  jobs_to_cleanup.foldl (fun st id => cleanup_job_files id st) s

/-! ## The ISO round-trip -/

theorem digits_length_le {n w : Nat} (h : n < 10 ^ w) :
    (Nat.digits 10 n).length ≤ w := by
  rcases Nat.eq_zero_or_pos n with rfl | hn
  · simp
  · rw [Nat.digits_len 10 n (by norm_num) (Nat.pos_iff_ne_zero.mp hn)]
    exact Nat.log_lt_of_lt_pow (Nat.pos_iff_ne_zero.mp hn) h

theorem length_padDigits {n w : Nat} (h : n < 10 ^ w) :
    (padDigits w n).length = w := by
  have := digits_length_le h
  simp only [padDigits, List.length_append, List.length_replicate,
    digitChars, List.length_reverse, List.length_map]
  omega

theorem isDigit_padDigits {n w : Nat} :
    ∀ c ∈ padDigits w n, c.isDigit := by
  intro c hc
  rcases List.mem_append.mp hc with h1 | h1
  · rw [List.eq_of_mem_replicate h1]; decide
  · rw [digitChars] at h1
    obtain ⟨d, hd, rfl⟩ := List.mem_map.mp (List.mem_reverse.mp h1)
    have : d < 10 := Nat.digits_lt_base (by norm_num) hd
    interval_cases d <;> decide

theorem foldr_digits (n : Nat) :
    (Nat.digits 10 n).foldr (fun d a => 10 * a + d) 0 = n := by
  induction n using Nat.strong_induction_on with
  | _ n ih =>
    rcases Nat.eq_zero_or_pos n with rfl | hn
    · simp
    · rw [Nat.digits_def' (by norm_num : (1:Nat) < 10) hn, List.foldr_cons,
        ih (n / 10) (Nat.div_lt_self hn (by norm_num))]
      omega

theorem decDigits_digitChars (n : Nat) : decDigits (digitChars n) = n := by
  rw [decDigits, digitChars, List.foldl_reverse, List.foldr_map]
  have key : ∀ L : List Nat, (∀ d ∈ L, d < 10) →
      L.foldr (fun d a => 10 * a + ((Char.ofNat (48 + d)).toNat - 48)) 0 =
        L.foldr (fun d a => 10 * a + d) 0 := by
    intro L
    induction L with
    | nil => intro _; rfl
    | cons d L' ih =>
      intro h
      rw [List.foldr_cons, List.foldr_cons, ih (fun x hx => h x (by simp [hx]))]
      have hd : d < 10 := h d (by simp)
      have : (Char.ofNat (48 + d)).toNat = 48 + d := by
        interval_cases d <;> decide
      omega
  rw [key _ (fun d hd => Nat.digits_lt_base (by norm_num) hd), foldr_digits]

theorem decDigits_padDigits {n w : Nat} : decDigits (padDigits w n) = n := by
  rw [padDigits, decDigits, List.foldl_append]
  have : ∀ k, (List.replicate k '0').foldl
      (fun a c => 10 * a + (c.toNat - 48)) 0 = 0 := by
    intro k
    induction k with
    | zero => rfl
    | succ k ih => rw [List.replicate_succ, List.foldl_cons]; simpa using ih
  rw [this]
  exact decDigits_digitChars n

theorem readN_padDigits {n w : Nat} (h : n < 10 ^ w) (rest : List Char) :
    readN w (padDigits w n ++ rest) = some (n, rest) := by
  have hcond : ((padDigits w n).length = w
      && (padDigits w n).all (fun c => c.isDigit)) = true := by
    simp only [Bool.and_eq_true, decide_eq_true_eq, List.all_eq_true]
    exact ⟨length_padDigits h, fun c hc => isDigit_padDigits c hc⟩
  simp only [readN, List.take_left' (length_padDigits h),
    List.drop_left' (length_padDigits h), hcond, if_true,
    decDigits_padDigits]

theorem readN_padDigits_nil {n w : Nat} (h : n < 10 ^ w) :
    readN w (padDigits w n) = some (n, []) := by
  have := readN_padDigits h []
  rwa [List.append_nil] at this

theorem expectChar_cons (c : Char) (rest : List Char) :
    expectChar c (c :: rest) = some rest := by
  simp [expectChar]

theorem parseFrac_nil : parseFrac [] = some 0 := rfl

theorem parseFrac_dot {us : Nat} (h : us < 10 ^ 6) :
    parseFrac ('.' :: padDigits 6 us) = some us := by
  rw [parseFrac, if_neg (by simp), expectChar_cons]
  show (match readN 6 (padDigits 6 us) with
    | some (v, rest2) => if rest2 = [] then some v else none
    | none => none) = some us
  rw [readN_padDigits_nil h]
  rfl

/-- A valid `datetime` round-trips through its ISO string exactly. -/
theorem fromisoformat_isoformat (t : DT) (h : t.Valid) :
    fromisoformat (isoformat t) = some t := by
  obtain ⟨hy, hmo, hd, hh, hmi, hs, hus⟩ := h
  rw [isoformat, fromisoformat]
  rw [readN_padDigits (by omega : t.year < 10 ^ 4)]
  simp only [Option.bind_eq_bind, Option.some_bind]
  rw [expectChar_cons]
  simp only [Option.some_bind]
  rw [readN_padDigits (by omega : t.month < 10 ^ 2)]
  simp only [Option.some_bind]
  rw [expectChar_cons]
  simp only [Option.some_bind]
  rw [readN_padDigits (by omega : t.day < 10 ^ 2)]
  simp only [Option.some_bind]
  rw [expectChar_cons]
  simp only [Option.some_bind]
  rw [readN_padDigits (by omega : t.hour < 10 ^ 2)]
  simp only [Option.some_bind]
  rw [expectChar_cons]
  simp only [Option.some_bind]
  rw [readN_padDigits (by omega : t.minute < 10 ^ 2)]
  simp only [Option.some_bind]
  rw [expectChar_cons]
  simp only [Option.some_bind]
  by_cases h0 : t.microsecond = 0
  · rw [if_pos h0, List.append_nil,
      readN_padDigits_nil (by omega : t.second < 10 ^ 2)]
    simp only [Option.some_bind, parseFrac_nil]
    cases t
    simp_all
  · rw [if_neg h0, readN_padDigits (by omega : t.second < 10 ^ 2)]
    simp only [Option.some_bind]
    rw [parseFrac_dot (by omega : t.microsecond < 10 ^ 6)]
    simp only [Option.some_bind]

/-- Validity of the datetime fields a record carries. -/
def JobRecord.Valid (r : JobRecord) : Prop :=
  r.created_at.Valid ∧ (∀ d ∈ r.completed_at, d.Valid) ∧
    (∀ d ∈ r.failed_at, d.Valid)

instance (r : JobRecord) : Decidable r.Valid := by
  unfold JobRecord.Valid; infer_instance

/-- Serializing a record and deserializing it restores every field. -/
theorem decode_date_opt_encode {x : Option DT} (h : ∀ d ∈ x, d.Valid) :
    decode_date_opt (x.map isoformat) = some x := by
  cases x with
  | none => rfl
  | some d => simp [decode_date_opt, fromisoformat_isoformat d (h d (by simp))]

theorem decode_encode (r : JobRecord) (h : r.Valid) :
    decode_job (encode_job r) = some r := by
  obtain ⟨h1, h2, h3⟩ := h
  rw [decode_job, encode_job]
  simp only [fromisoformat_isoformat r.created_at h1,
    decode_date_opt_encode h2, decode_date_opt_encode h3,
    Option.bind_eq_bind, Option.some_bind]

/-! ## Association-list (dict) lemmas -/

theorem lookup_cons_self {α : Type} (k : String) (v : α)
    (l : List (String × α)) : ((k, v) :: l).lookup k = some v := by
  simp [List.lookup]

theorem lookup_cons_of_ne {α : Type} {k k' : String} (h : k' ≠ k) (v : α)
    (l : List (String × α)) : ((k, v) :: l).lookup k' = l.lookup k' := by
  simp [List.lookup, beq_false_of_ne h]

theorem lookup_setEntry_self {α : Type} (k : String) (v : α)
    (l : List (String × α)) : (setEntry k v l).lookup k = some v := by
  simp [setEntry, List.lookup]

theorem lookup_filter_ne {α : Type} {k k' : String} (hne : k' ≠ k)
    (l : List (String × α)) :
    (l.filter (fun kv => kv.1 ≠ k)).lookup k' = l.lookup k' := by
  induction l with
  | nil => rfl
  | cons kv rest ih =>
    by_cases h1 : kv.1 = k
    · rw [List.filter_cons_of_neg (by simp [h1])]
      rw [ih]
      cases kv
      simp only at h1
      subst h1
      rw [lookup_cons_of_ne hne]
    · rw [List.filter_cons_of_pos (by simp [h1])]
      cases kv with
      | mk k0 v0 =>
        by_cases h2 : k' = k0
        · subst h2
          simp [List.lookup]
        · rw [lookup_cons_of_ne h2, lookup_cons_of_ne h2, ih]

theorem lookup_setEntry_ne {α : Type} {k k' : String} (hne : k' ≠ k) (v : α)
    (l : List (String × α)) :
    (setEntry k v l).lookup k' = l.lookup k' := by
  rw [setEntry, lookup_cons_of_ne hne, lookup_filter_ne hne]

theorem lookup_filter_self {α : Type} (k : String) (l : List (String × α)) :
    (l.filter (fun kv => kv.1 ≠ k)).lookup k = none := by
  induction l with
  | nil => rfl
  | cons kv rest ih =>
    by_cases h1 : kv.1 = k
    · rw [List.filter_cons_of_neg (by simp [h1])]; exact ih
    · cases kv with
      | mk k0 v0 =>
        rw [List.filter_cons_of_pos (by simp [h1]),
          lookup_cons_of_ne (fun he => h1 (by simp [he.symm])), ih]

/-- Dict update `JOB_STORE[k][...] = ...` observed at the same key. -/
theorem lookup_map_update_self {k : String} {r : JobRecord}
    (f : JobRecord → JobRecord) {l : List (String × JobRecord)}
    (h : l.lookup k = some r) :
    (l.map (fun kv => if kv.1 = k then (kv.1, f kv.2) else kv)).lookup k
      = some (f r) := by
  induction l with
  | nil => cases h
  | cons kv rest ih =>
    cases kv with
    | mk k0 v0 =>
      by_cases h1 : k = k0
      · subst h1
        rw [lookup_cons_self] at h
        cases h
        dsimp only [List.map_cons]
        rw [if_pos rfl, lookup_cons_self]
      · rw [lookup_cons_of_ne h1] at h
        rw [List.map_cons, if_neg (by simpa using (Ne.symm h1))]
        rw [lookup_cons_of_ne h1]
        exact ih h

/-- Dict update observed at a different key. -/
theorem lookup_map_update_ne {k k' : String} (hne : k' ≠ k)
    (f : JobRecord → JobRecord) (l : List (String × JobRecord)) :
    (l.map (fun kv => if kv.1 = k then (kv.1, f kv.2) else kv)).lookup k'
      = l.lookup k' := by
  induction l with
  | nil => rfl
  | cons kv rest ih =>
    cases kv with
    | mk k0 v0 =>
      by_cases h1 : k0 = k
      · subst h1
        rw [List.map_cons, if_pos rfl]
        rw [lookup_cons_of_ne hne, lookup_cons_of_ne hne]
        exact ih
      · rw [List.map_cons, if_neg (by simpa using h1)]
        by_cases h2 : k' = k0
        · subst h2
          simp [List.lookup]
        · rw [lookup_cons_of_ne h2, lookup_cons_of_ne h2]
          exact ih

/-! ## Store operation lemmas -/

/-- `_save_job_to_disk` touches only the metadata directory. -/
theorem mem_save_job_to_disk (id : String) (st : SysState) :
    (save_job_to_disk id st).mem = st.mem := by
  rw [save_job_to_disk]
  cases h : st.mem.lookup id <;> rfl

theorem setJob_unknown {id : String} {s : SysState}
    (hm : s.mem.lookup id = none) (f : JobRecord → JobRecord) :
    setJob id f s = s := by
  rw [setJob, if_neg (by rw [hm]; simp)]

theorem lookup_setJob_self {id : String} {s : SysState} {r : JobRecord}
    (hm : s.mem.lookup id = some r) (f : JobRecord → JobRecord) :
    (setJob id f s).mem.lookup id = some (f r) := by
  rw [setJob, if_pos (by rw [hm]; rfl), mem_save_job_to_disk]
  exact lookup_map_update_self f hm

/-! ## Claim theorems for the job store -/

/-- C8: committing a record to durable storage and loading it back (as a
fresh store instance would on restart) restores every field exactly,
including the datetime fields. -/
theorem save_load_roundtrip (s : SysState) (job_id : String) (r : JobRecord)
    (hm : s.mem.lookup job_id = some r) (hv : r.Valid) :
    load_job_from_disk job_id (save_job_to_disk job_id s) = some r := by
  rw [save_job_to_disk, hm, load_job_from_disk]
  dsimp only
  rw [lookup_setEntry_self]
  simp only [Option.some_bind]
  exact decode_encode r hv

/-- C8 witness: a concrete completed record with microseconds round-trips
through disk. -/
theorem save_load_roundtrip_witness :
    load_job_from_disk "j"
      (save_job_to_disk "j"
        ⟨[("j", { status := "completed", progress := 100,
                  message := "Translation completed successfully",
                  created_at := ⟨2026, 10, 12, 7, 5, 3, 123456⟩,
                  original_filename := some "book.pdf", downloaded := true,
                  completed_at := some ⟨2026, 10, 12, 8, 0, 0, 0⟩,
                  failed_at := none })], [], [], []⟩) =
      some { status := "completed", progress := 100,
             message := "Translation completed successfully",
             created_at := ⟨2026, 10, 12, 7, 5, 3, 123456⟩,
             original_filename := some "book.pdf", downloaded := true,
             completed_at := some ⟨2026, 10, 12, 8, 0, 0, 0⟩,
             failed_at := none } :=
  save_load_roundtrip _ "j" _ (by rfl) (by decide)

/-- C2 fails on the code: `update_job` only checks `job_id in JOB_STORE`,
never the status, so an `update` on a completed record overwrites its
progress (here 100 → 55) and message.  The unknown-id clause does hold;
only the terminal-immutability clause is wrong. -/
theorem update_job_mutates_terminal :
    (update_job "j" 55 "going backwards"
        ⟨[("j", { status := "completed", progress := 100,
                  message := "Translation completed successfully",
                  created_at := ⟨2026, 1, 1, 0, 0, 0, 0⟩,
                  original_filename := none, downloaded := false,
                  completed_at := some ⟨2026, 1, 1, 1, 0, 0, 0⟩,
                  failed_at := none })], [], [], []⟩).mem.lookup "j" =
      some { status := "completed", progress := 55,
             message := "going backwards",
             created_at := ⟨2026, 1, 1, 0, 0, 0, 0⟩,
             original_filename := none, downloaded := false,
             completed_at := some ⟨2026, 1, 1, 1, 0, 0, 0⟩,
             failed_at := none } ∧ (55 : Nat) ≠ 100 :=
  ⟨by rfl, by decide⟩

/-- C2 amended: `update`/`complete`/`fail`/`markDownloaded` on an unknown
id are no-ops and do not error; but a terminal record is not immutable
under `update` — on any existing record, terminal or not, `update`
overwrites `progress` and `message` (leaving `status` unchanged). -/
theorem terminal_update_amended (s : SysState) (id : String) (p : Nat)
    (m : String) (now : DT) :
    (s.mem.lookup id = none →
      update_job id p m s = s ∧ complete_job now id s = s ∧
        fail_job now id m s = s ∧ mark_downloaded id s = s) ∧
    (∀ r, s.mem.lookup id = some r →
      (update_job id p m s).mem.lookup id =
        some { r with progress := p, message := m }) := by
  constructor
  · intro hm
    exact ⟨setJob_unknown hm _, setJob_unknown hm _, setJob_unknown hm _,
      setJob_unknown hm _⟩
  · intro r hm
    exact lookup_setJob_self hm _

/-- C2 amended witness: on the unknown id "ghost" all four mutators leave
the empty store unchanged, and `update` on a completed record rewrites
progress and message. -/
theorem terminal_update_amended_witness :
    update_job "ghost" 10 "x" ⟨[], [], [], []⟩ = ⟨[], [], [], []⟩ :=
  ((terminal_update_amended ⟨[], [], [], []⟩ "ghost" 10 "x"
    ⟨2026, 1, 1, 0, 0, 0, 0⟩).1 (by rfl)).1

/-- C6: on an existing non-terminal record, `complete` sets
`status = "completed"` and `progress = 100` (with the fixed completion
message and timestamp), and `fail` sets `status = "failed"` and
`message = m` while leaving `progress` at the value it held. -/
theorem complete_fail_semantics (s : SysState) (now : DT) (id : String)
    (m : String) (r : JobRecord) (hm : s.mem.lookup id = some r)
    (hnt : r.status ≠ "completed" ∧ r.status ≠ "failed") :
    ((complete_job now id s).mem.lookup id =
      some { r with status := "completed", progress := 100,
                    message := "Translation completed successfully",
                    completed_at := some now }) ∧
    ((fail_job now id m s).mem.lookup id =
      some { r with status := "failed", message := m,
                    failed_at := some now }) :=
  ⟨lookup_setJob_self hm _, lookup_setJob_self hm _⟩

/-- C6 witness: completing and failing a fresh `"started"` record. -/
theorem complete_fail_semantics_witness :
    ((complete_job ⟨2026, 1, 1, 2, 0, 0, 0⟩ "j"
        ⟨[("j", { status := "started", progress := 40,
                  message := "Processing 3 chunks...",
                  created_at := ⟨2026, 1, 1, 0, 0, 0, 0⟩,
                  original_filename := none, downloaded := false })],
          [], [], []⟩).mem.lookup "j" =
      some { status := "completed", progress := 100,
             message := "Translation completed successfully",
             created_at := ⟨2026, 1, 1, 0, 0, 0, 0⟩,
             original_filename := none, downloaded := false,
             completed_at := some ⟨2026, 1, 1, 2, 0, 0, 0⟩ }) ∧
    ((fail_job ⟨2026, 1, 1, 2, 0, 0, 0⟩ "j" "boom"
        ⟨[("j", { status := "started", progress := 40,
                  message := "Processing 3 chunks...",
                  created_at := ⟨2026, 1, 1, 0, 0, 0, 0⟩,
                  original_filename := none, downloaded := false })],
          [], [], []⟩).mem.lookup "j" =
      some { status := "failed", progress := 40, message := "boom",
             created_at := ⟨2026, 1, 1, 0, 0, 0, 0⟩,
             original_filename := none, downloaded := false,
             failed_at := some ⟨2026, 1, 1, 2, 0, 0, 0⟩ }) :=
  complete_fail_semantics
    ⟨[("j", { status := "started", progress := 40,
              message := "Processing 3 chunks...",
              created_at := ⟨2026, 1, 1, 0, 0, 0, 0⟩,
              original_filename := none, downloaded := false })],
      [], [], []⟩
    ⟨2026, 1, 1, 2, 0, 0, 0⟩ "j" "boom"
    { status := "started", progress := 40,
      message := "Processing 3 chunks...",
      created_at := ⟨2026, 1, 1, 0, 0, 0, 0⟩,
      original_filename := none, downloaded := false }
    (by rfl) (by decide)

/-! ## Cleanup sweep lemmas -/

theorem mem_of_lookup_eq_some {α : Type} {k : String} {v : α}
    {l : List (String × α)} (h : l.lookup k = some v) : (k, v) ∈ l := by
  induction l with
  | nil => cases h
  | cons kv rest ih =>
    cases kv with
    | mk k0 v0 =>
      by_cases hk : k = k0
      · subst hk
        rw [lookup_cons_self] at h
        cases h
        simp
      · rw [lookup_cons_of_ne hk] at h
        simp [ih h]

theorem lookup_eq_of_mem_nodup {α : Type} {k : String} {v : α}
    {l : List (String × α)} (h : (k, v) ∈ l)
    (hnd : (l.map Prod.fst).Nodup) : l.lookup k = some v := by
  induction l with
  | nil => cases h
  | cons kv rest ih =>
    cases kv with
    | mk k0 v0 =>
      rcases List.mem_cons.mp h with h1 | h1
      · cases h1
        exact lookup_cons_self _ _ _
      · have hk : k ≠ k0 := by
          intro he
          subst he
          have : k ∈ rest.map Prod.fst :=
            List.mem_map.mpr ⟨(k, v), h1, rfl⟩
          exact (List.nodup_cons.mp (by simpa using hnd)).1 this
        rw [lookup_cons_of_ne hk]
        exact ih h1 (List.nodup_cons.mp (by simpa using hnd)).2

theorem cleanup_self (id : String) (s : SysState) :
    (cleanup_job_files id s).mem.lookup id = none ∧
    (cleanup_job_files id s).disk.lookup id = none ∧
    id ∉ (cleanup_job_files id s).uploads ∧
    id ∉ (cleanup_job_files id s).outputs := by
  refine ⟨lookup_filter_self id s.mem, lookup_filter_self id s.disk, ?_, ?_⟩
    <;> simp [cleanup_job_files]

theorem cleanup_other {id id' : String} (hne : id' ≠ id) (s : SysState) :
    (cleanup_job_files id s).mem.lookup id' = s.mem.lookup id' ∧
    (cleanup_job_files id s).disk.lookup id' = s.disk.lookup id' ∧
    (id' ∈ (cleanup_job_files id s).uploads ↔ id' ∈ s.uploads) ∧
    (id' ∈ (cleanup_job_files id s).outputs ↔ id' ∈ s.outputs) := by
  refine ⟨lookup_filter_ne hne s.mem, lookup_filter_ne hne s.disk, ?_, ?_⟩
    <;> simp [cleanup_job_files, List.mem_filter, hne]

/-- Sweeping a list of ids not containing `id` leaves `id`'s record and
files untouched. -/
theorem foldl_cleanup_not_mem {id : String} :
    ∀ (L : List String), id ∉ L → ∀ (s : SysState),
      (L.foldl (fun st i => cleanup_job_files i st) s).mem.lookup id
          = s.mem.lookup id ∧
      (L.foldl (fun st i => cleanup_job_files i st) s).disk.lookup id
          = s.disk.lookup id ∧
      (id ∈ (L.foldl (fun st i => cleanup_job_files i st) s).uploads
          ↔ id ∈ s.uploads) ∧
      (id ∈ (L.foldl (fun st i => cleanup_job_files i st) s).outputs
          ↔ id ∈ s.outputs) := by
  intro L
  induction L with
  | nil => intro _ s; exact ⟨rfl, rfl, Iff.rfl, Iff.rfl⟩
  | cons i L' ih =>
    intro h s
    have hne : id ≠ i := fun he => h (by simp [he])
    obtain ⟨e1, e2, e3, e4⟩ := cleanup_other hne s
    obtain ⟨f1, f2, f3, f4⟩ := ih (fun hm => h (by simp [hm]))
      (cleanup_job_files i s)
    exact ⟨f1.trans e1, f2.trans e2, f3.trans e3, f4.trans e4⟩

/-- Sweeping a list of ids containing `id` removes `id`'s record, metadata
and files. -/
theorem foldl_cleanup_mem {id : String} :
    ∀ (L : List String), id ∈ L → ∀ (s : SysState),
      (L.foldl (fun st i => cleanup_job_files i st) s).mem.lookup id
          = none ∧
      (L.foldl (fun st i => cleanup_job_files i st) s).disk.lookup id
          = none ∧
      id ∉ (L.foldl (fun st i => cleanup_job_files i st) s).uploads ∧
      id ∉ (L.foldl (fun st i => cleanup_job_files i st) s).outputs := by
  intro L
  induction L with
  | nil => intro h; cases h
  | cons i L' ih =>
    intro h s
    by_cases hmem : id ∈ L'
    · exact ih hmem (cleanup_job_files i s)
    · have hid : id = i := by
        rcases List.mem_cons.mp h with h1 | h1
        · exact h1
        · exact absurd h1 hmem
      subst hid
      obtain ⟨e1, e2, e3, e4⟩ := cleanup_self id s
      obtain ⟨f1, f2, f3, f4⟩ := foldl_cleanup_not_mem L' hmem
        (cleanup_job_files id s)
      exact ⟨f1.trans e1, f2.trans e2, fun hc => e3 (f3.mp hc),
        fun hc => e4 (f4.mp hc)⟩

/-! ## Claim theorem for the sweep -/

/-- C7: one periodic sweep at time `now` (retention
`CLEANUP_AFTER_HOURS = 2`) deletes every job whose `created_at` is older
than `now - 2h` — in-memory record, metadata and both files — regardless
of its status, and leaves every job at or past the cutoff, and its files,
untouched.  File removal is exists-guarded and try/except-wrapped in the
source, so already-absent files make no difference and nothing is raised;
the hypotheses put no condition on the file lists.  (`hnd` is the dict
key-uniqueness invariant of `JOB_STORE`.) -/
theorem cleanup_old_jobs_spec (now : DT) (s : SysState) (id : String)
    (r : JobRecord) (hnd : (s.mem.map Prod.fst).Nodup)
    (hm : s.mem.lookup id = some r) :
    (dtLt r.created_at (dtSubHours 2 now) = true →
      (cleanup_old_jobs now s).mem.lookup id = none ∧
      (cleanup_old_jobs now s).disk.lookup id = none ∧
      id ∉ (cleanup_old_jobs now s).uploads ∧
      id ∉ (cleanup_old_jobs now s).outputs) ∧
    (dtLt r.created_at (dtSubHours 2 now) = false →
      (cleanup_old_jobs now s).mem.lookup id = some r ∧
      (cleanup_old_jobs now s).disk.lookup id = s.disk.lookup id ∧
      (id ∈ (cleanup_old_jobs now s).uploads ↔ id ∈ s.uploads) ∧
      (id ∈ (cleanup_old_jobs now s).outputs ↔ id ∈ s.outputs)) := by
  simp only [cleanup_old_jobs]
  constructor
  · intro hold
    have hidL : id ∈ (s.mem.filter
        (fun kv => dtLt kv.2.created_at (dtSubHours 2 now))).map
          (fun kv => kv.1) :=
      List.mem_map.mpr ⟨(id, r),
        List.mem_filter.mpr ⟨mem_of_lookup_eq_some hm, by simpa using hold⟩,
        rfl⟩
    exact foldl_cleanup_mem _ hidL s
  · intro hnew
    have hidL : id ∉ (s.mem.filter
        (fun kv => dtLt kv.2.created_at (dtSubHours 2 now))).map
          (fun kv => kv.1) := by
      intro hc
      obtain ⟨kv, hkv, hfst⟩ := List.mem_map.mp hc
      obtain ⟨hkvmem, hkvold⟩ := List.mem_filter.mp hkv
      have hl : s.mem.lookup id = some kv.2 := by
        rw [← hfst]
        exact lookup_eq_of_mem_nodup (k := kv.1) (v := kv.2)
          (by rw [Prod.mk.eta]; exact hkvmem) hnd
      rw [hm] at hl
      have hr : r = kv.2 := Option.some.inj hl
      have hkvold' : dtLt kv.2.created_at (dtSubHours 2 now) = true := by
        simpa using hkvold
      rw [← hr, hnew] at hkvold'
      cases hkvold'
    obtain ⟨e1, e2, e3, e4⟩ := foldl_cleanup_not_mem _ hidL s
    exact ⟨e1.trans hm, e2, e3, e4⟩

/-- C7 witness: at noon with a 2-hour retention, a job created at 9:00 is
fully deleted while its files were already absent (empty file lists), and
nothing fails. -/
theorem cleanup_old_jobs_spec_witness :
    (cleanup_old_jobs ⟨2026, 1, 1, 12, 0, 0, 0⟩
      ⟨[("old", { status := "started", progress := 10, message := "x",
                  created_at := ⟨2026, 1, 1, 9, 0, 0, 0⟩,
                  original_filename := none, downloaded := false })],
        [], [], []⟩).mem.lookup "old" = none :=
  ((cleanup_old_jobs_spec ⟨2026, 1, 1, 12, 0, 0, 0⟩
      ⟨[("old", { status := "started", progress := 10, message := "x",
                  created_at := ⟨2026, 1, 1, 9, 0, 0, 0⟩,
                  original_filename := none, downloaded := false })],
        [], [], []⟩ "old"
      { status := "started", progress := 10, message := "x",
        created_at := ⟨2026, 1, 1, 9, 0, 0, 0⟩,
        original_filename := none, downloaded := false }
      (by decide) (by rfl)).1 (by decide)).1

/-! ## Translator (`backend/app/services/translator.py`)

`translate_chunk` runs up to `max_retries` attempts against the OpenAI
client.  One attempt either raises, or returns a content string (a `None`
content behaves exactly like the empty string: both are falsy and raise
`TranslationError("Empty translation output from API")` inside the same
`try`, which the `except` then counts as a failed attempt). -/

inductive Attempt where
  | raise (msg : String)
  | content (s : List Char)

/-- The body of one `try`: a raise propagates its message; returned
content that is empty or whitespace-only raises the empty-output error;
otherwise the stripped content is returned. -/
def attempt_outcome : Attempt → Except String (List Char)
  | .raise msg => .error msg
  | .content s =>
    if strip s = [] then .error "Empty translation output from API"
    else .ok (strip s)

/-- Observable behaviour of one `translate_chunk` call: how many attempts
ran, the `time.sleep` durations in order, and the returned value or the
raised `TranslationError` message. -/
structure TCResult where
  attempts : Nat
  sleeps : List Nat
  result : Except String (List Char)
deriving DecidableEq, Repr

/-- The retry loop `for attempt in range(1, self.max_retries + 1)`, run
over the remaining attempt numbers.  On failure at `attempt ==
max_retries` it raises `TranslationError` carrying the underlying error;
otherwise it sleeps `sleep_between_retries * attempt` and retries.  An
exhausted list (only possible when `max_retries < 1`) reaches the final
`raise TranslationError("Translation failed unexpectedly")`. -/
def tcLoop (max_retries sleep_between_retries : Nat) (api : Nat → Attempt) :
    List Nat → TCResult
  | [] => ⟨0, [], .error "Translation failed unexpectedly"⟩
  | attempt :: rest =>
    match attempt_outcome (api attempt) with
    | .ok s => ⟨1, [], .ok s⟩
    | .error e =>
      if attempt = max_retries then
        ⟨1, [], .error ("Translation failed after " ++ toString max_retries
          ++ " attempts: " ++ e)⟩
      else
        let r := tcLoop max_retries sleep_between_retries api rest
        ⟨r.attempts + 1, (sleep_between_retries * attempt) :: r.sleeps,
          r.result⟩

/-- `TranslatorService.translate_chunk(text)`: blank input returns `""`
with no attempt; mock mode returns the stripped input; otherwise the
retry loop runs on attempts `1, ..., max_retries`. -/
def translate_chunk (mock : Bool) (max_retries sleep_between_retries : Nat)
    (text : List Char) (api : Nat → Attempt) : TCResult :=
  if strip text = [] then ⟨0, [], .ok []⟩
  else if mock then ⟨0, [], .ok (strip text)⟩
  else tcLoop max_retries sleep_between_retries api
    (List.range' 1 max_retries)

/-! ## Pipeline orchestrator (`backend/app/main.py`,
`process_translation_job`)

External collaborators are modeled as succeeding with caller-chosen
durations (`extractDur`, `trDur idx`, `renderDur`): the claims under
study concern where the elapsed-time checks sit between units of work.
Internal failure gates — the missing-file check, the 50-character
minimum, `ChunkingError` — are modeled exactly.  The trace records each
`check_timeout()`, each start of external work, each `update_job`, and
the terminal `complete_job`/`fail_job`, every event stamped with the
elapsed time at which it is issued. -/

inductive Ev where
  | check (t : Nat)
  | startExtract (t : Nat)
  | startChunk (t : Nat)
  | startTranslate (idx : Nat) (t : Nat)
  | startRender (t : Nat)
  | updateJob (t : Nat)
  | completeJob (t : Nat)
  | failJob (t : Nat) (msg : String)
deriving DecidableEq, Repr

def TIME_LIMIT : Nat := 600

def timeoutMsg : String :=
  "Processing took too long (10+ minutes). Try a smaller PDF or contact support."

def excMsg : ChunkExc → String
  | .chunkingError m => m
  | .valueError => "range() arg 3 must not be zero"

/-- The body of `for idx, chunk in enumerate(chunks, start=1)`: check the
deadline, report progress, translate the chunk (time advances).  Returns
the events and, if the loop was not cut short, the final elapsed time. -/
def translateLoopEv (trDur : Nat → Nat) : Nat → Nat → Nat → List Ev × Option Nat
  | 0, _, t => ([], some t)
  | k + 1, idx, t =>
    if t > TIME_LIMIT then ([.check t, .failJob t timeoutMsg], none)
    else
      let r := translateLoopEv trDur k (idx + 1) (t + trDur idx)
      (.check t :: .updateJob t :: .startTranslate idx t :: r.1, r.2)

def process_translation_job (fileExists : Bool) (pages : List (List Char))
    (extractDur renderDur : Nat) (trDur : Nat → Nat) : List Ev :=
  -- check_timeout() at the top of the try block
  if 0 > TIME_LIMIT then [.check 0, .failJob 0 timeoutMsg]
  else
    .check 0 ::
    if fileExists = false then
      [.failJob 0 "Processing error: PDF not found"]
    else
      -- update_job(10); extraction runs; check_timeout()
      .updateJob 0 :: .startExtract 0 ::
      if extractDur > TIME_LIMIT then
        [.check extractDur, .failJob extractDur timeoutMsg]
      else
        .check extractDur ::
        if (pages.map List.length).sum < 50 then
          [.failJob extractDur
            "PDF read error: Extracted text too short - PDF may be corrupted or empty"]
        else
          -- update_job(30); chunking; check_timeout(); update_job(40)
          .updateJob extractDur :: .startChunk extractDur ::
          match chunk_pages pages with
          | .error e =>
            [.failJob extractDur ("Processing error: " ++ excMsg e)]
          | .ok chunks =>
            if extractDur > TIME_LIMIT then
              [.check extractDur, .failJob extractDur timeoutMsg]
            else
              .check extractDur :: .updateJob extractDur ::
              (translateLoopEv trDur chunks.length 1 extractDur).1 ++
              match (translateLoopEv trDur chunks.length 1 extractDur).2 with
              | none => []
              | some t2 =>
                -- update_job(90); render; complete_job — no deadline check here
                [.updateJob t2, .startRender t2,
                  .completeJob (t2 + renderDur)]

def elapsedOf : Ev → Nat
  | .check t => t
  | .startExtract t => t
  | .startChunk t => t
  | .startTranslate _ t => t
  | .startRender t => t
  | .updateJob t => t
  | .completeJob t => t
  | .failJob t _ => t

/-- All four kinds of stage/chunk work. -/
def isWorkEv : Ev → Bool
  | .startExtract _ => true
  | .startChunk _ => true
  | .startTranslate _ _ => true
  | .startRender _ => true
  | _ => false

/-- Work other than Render. -/
def isNonRenderWorkEv : Ev → Bool
  | .startExtract _ => true
  | .startChunk _ => true
  | .startTranslate _ _ => true
  | _ => false

/-- Scans the trace carrying the elapsed times of the checks seen so far;
every work event selected by `wk` must be issued at an elapsed time at
which a check has already run (i.e. no work postdating the last check by
a time advance). -/
def checksBefore (wk : Ev → Bool) : List Nat → List Ev → Bool
  | _, [] => true
  | seen, .check t :: rest => checksBefore wk (t :: seen) rest
  | seen, ev :: rest =>
    (if wk ev then decide (elapsedOf ev ∈ seen) else true)
      && checksBefore wk seen rest

/-- Whenever a check is issued past the deadline, the trace ends right
there with the timeout failure — no further work of any kind. -/
def stopsOnFailedCheck : List Ev → Bool
  | [] => true
  | .check t :: rest =>
    if t > TIME_LIMIT then decide (rest = [.failJob t timeoutMsg])
    else stopsOnFailedCheck rest
  | _ :: rest => stopsOnFailedCheck rest

/-! ## Claim theorems for the translator -/

/-- C10: a blank (empty or whitespace-only) chunk returns the empty
string successfully, with no translation attempt, no sleep, and no error,
whatever the mode, retry budget or API behaviour. -/
theorem translate_chunk_blank (mock : Bool)
    (max_retries sleep_between_retries : Nat) (text : List Char)
    (api : Nat → Attempt) (h : strip text = []) :
    translate_chunk mock max_retries sleep_between_retries text api =
      ⟨0, [], .ok []⟩ := by
  rw [translate_chunk, if_pos h]

/-- C10 witness: a whitespace-only chunk against an always-raising API in
real (non-mock) mode. -/
theorem translate_chunk_blank_witness :
    translate_chunk false 3 2 [' ', '\n', '\t'] (fun _ => .raise "boom") =
      ⟨0, [], .ok []⟩ :=
  translate_chunk_blank false 3 2 [' ', '\n', '\t'] (fun _ => .raise "boom")
    (by decide)

theorem tcLoop_all_fail (max_retries sleep_between_retries : Nat)
    (api : Nat → Attempt) (errs : Nat → String) :
    ∀ k a, 1 ≤ k → 1 ≤ a → a + k = max_retries + 1 →
      (∀ i ∈ List.range' a k, attempt_outcome (api i) = .error (errs i)) →
      tcLoop max_retries sleep_between_retries api (List.range' a k) =
        ⟨k, (List.range' a (k - 1)).map (fun i => sleep_between_retries * i),
          .error ("Translation failed after " ++ toString max_retries
            ++ " attempts: " ++ errs max_retries)⟩ := by
  intro k
  induction k with
  | zero => intro a hk; cases hk
  | succ k ih =>
    intro a _ ha hsum hfail
    have hfa : attempt_outcome (api a) = .error (errs a) :=
      hfail a (by rw [List.range'_succ]; simp)
    rw [List.range'_succ, tcLoop, hfa]
    dsimp only
    by_cases hk0 : k = 0
    · subst hk0
      have haeq : a = max_retries := by omega
      subst haeq
      rw [if_pos rfl]
      rfl
    · rw [if_neg (by omega : ¬ a = max_retries)]
      have hfail' : ∀ i ∈ List.range' (a + 1) k,
          attempt_outcome (api i) = .error (errs i) := by
        intro i hi
        exact hfail i (by rw [List.range'_succ]; simp [hi])
      have hih := ih (a + 1) (by omega) (by omega) (by omega) hfail'
      simp only [hih]
      have hr : List.range' a k = a :: List.range' (a + 1) (k - 1) := by
        conv_lhs => rw [show k = (k - 1) + 1 by omega, List.range'_succ]
      simp [hr]

/-- C3: when every attempt fails (raises, or returns blank output — both
count as failures), `translate_chunk` performs exactly `max_retries`
attempts, sleeps `sleep_between_retries * attempt` between consecutive
attempts (attempts `1 .. max_retries - 1`), and raises a
`TranslationError` carrying the last underlying error; the result is an
error, never a partial or empty success value. -/
theorem translate_chunk_all_fail (sleep_between_retries : Nat)
    (text : List Char) (api : Nat → Attempt) (errs : Nat → String)
    (max_retries : Nat) (hmr : 1 ≤ max_retries)
    (htext : strip text ≠ [])
    (hfail : ∀ i ∈ List.range' 1 max_retries,
      attempt_outcome (api i) = .error (errs i)) :
    translate_chunk false max_retries sleep_between_retries text api =
      ⟨max_retries,
        (List.range' 1 (max_retries - 1)).map
          (fun i => sleep_between_retries * i),
        .error ("Translation failed after " ++ toString max_retries
          ++ " attempts: " ++ errs max_retries)⟩ := by
  rw [translate_chunk, if_neg htext, if_neg (by simp)]
  exact tcLoop_all_fail max_retries sleep_between_retries api errs
    max_retries 1 hmr (le_refl 1) (by omega) hfail

/-- C3 witness: two always-raising attempts with base delay 3 give
attempts `= 2`, one sleep of `3 * 1`, and the final `TranslationError`
carrying the last raise. -/
theorem translate_chunk_all_fail_witness :
    translate_chunk false 2 3 ['h', 'i'] (fun _ => .raise "boom") =
      ⟨2, (List.range' 1 1).map (fun i => 3 * i),
        .error ("Translation failed after " ++ toString 2
          ++ " attempts: " ++ "boom")⟩ :=
  translate_chunk_all_fail 3 ['h', 'i'] (fun _ => .raise "boom")
    (fun _ => "boom") 2 (by decide) (by decide) (by decide)

/-! ## Step equations for the trace predicates -/

theorem cbnr_nil (seen : List Nat) :
    checksBefore isNonRenderWorkEv seen [] = true := rfl

theorem cbnr_check (seen : List Nat) (t : Nat) (rest : List Ev) :
    checksBefore isNonRenderWorkEv seen (.check t :: rest) =
      checksBefore isNonRenderWorkEv (t :: seen) rest := rfl

theorem cbnr_update (seen : List Nat) (t : Nat) (rest : List Ev) :
    checksBefore isNonRenderWorkEv seen (.updateJob t :: rest) =
      checksBefore isNonRenderWorkEv seen rest := rfl

theorem cbnr_startExtract (seen : List Nat) (t : Nat) (rest : List Ev) :
    checksBefore isNonRenderWorkEv seen (.startExtract t :: rest) =
      (decide (t ∈ seen) && checksBefore isNonRenderWorkEv seen rest) := rfl

theorem cbnr_startChunk (seen : List Nat) (t : Nat) (rest : List Ev) :
    checksBefore isNonRenderWorkEv seen (.startChunk t :: rest) =
      (decide (t ∈ seen) && checksBefore isNonRenderWorkEv seen rest) := rfl

theorem cbnr_startTranslate (seen : List Nat) (idx t : Nat) (rest : List Ev) :
    checksBefore isNonRenderWorkEv seen (.startTranslate idx t :: rest) =
      (decide (t ∈ seen) && checksBefore isNonRenderWorkEv seen rest) := rfl

theorem cbnr_startRender (seen : List Nat) (t : Nat) (rest : List Ev) :
    checksBefore isNonRenderWorkEv seen (.startRender t :: rest) =
      checksBefore isNonRenderWorkEv seen rest := rfl

theorem cbnr_complete (seen : List Nat) (t : Nat) (rest : List Ev) :
    checksBefore isNonRenderWorkEv seen (.completeJob t :: rest) =
      checksBefore isNonRenderWorkEv seen rest := rfl

theorem cbnr_fail (seen : List Nat) (t : Nat) (m : String) (rest : List Ev) :
    checksBefore isNonRenderWorkEv seen (.failJob t m :: rest) =
      checksBefore isNonRenderWorkEv seen rest := rfl

theorem stops_nil : stopsOnFailedCheck [] = true := rfl

theorem stops_check (t : Nat) (rest : List Ev) :
    stopsOnFailedCheck (.check t :: rest) =
      (if t > TIME_LIMIT then decide (rest = [.failJob t timeoutMsg])
       else stopsOnFailedCheck rest) := rfl

theorem stops_update (t : Nat) (rest : List Ev) :
    stopsOnFailedCheck (.updateJob t :: rest) = stopsOnFailedCheck rest := rfl

theorem stops_startExtract (t : Nat) (rest : List Ev) :
    stopsOnFailedCheck (.startExtract t :: rest) =
      stopsOnFailedCheck rest := rfl

theorem stops_startChunk (t : Nat) (rest : List Ev) :
    stopsOnFailedCheck (.startChunk t :: rest) = stopsOnFailedCheck rest := rfl

theorem stops_startTranslate (idx t : Nat) (rest : List Ev) :
    stopsOnFailedCheck (.startTranslate idx t :: rest) =
      stopsOnFailedCheck rest := rfl

theorem stops_startRender (t : Nat) (rest : List Ev) :
    stopsOnFailedCheck (.startRender t :: rest) =
      stopsOnFailedCheck rest := rfl

theorem stops_complete (t : Nat) (rest : List Ev) :
    stopsOnFailedCheck (.completeJob t :: rest) = stopsOnFailedCheck rest := rfl

theorem stops_fail (t : Nat) (m : String) (rest : List Ev) :
    stopsOnFailedCheck (.failJob t m :: rest) = stopsOnFailedCheck rest := rfl

/-! ## Loop lemmas -/

theorem cbnr_loop (trDur : Nat → Nat) :
    ∀ k idx t (seen : List Nat) (suffix : List Ev),
      (∀ seen', checksBefore isNonRenderWorkEv seen' suffix = true) →
      checksBefore isNonRenderWorkEv seen
        ((translateLoopEv trDur k idx t).1 ++ suffix) = true := by
  intro k
  induction k with
  | zero =>
    intro idx t seen suffix hs
    rw [translateLoopEv]
    simpa using hs seen
  | succ k ih =>
    intro idx t seen suffix hs
    rw [translateLoopEv]
    by_cases ht : t > TIME_LIMIT
    · rw [if_pos ht]
      simp only [List.cons_append, List.nil_append]
      rw [cbnr_check, cbnr_fail]
      exact hs _
    · rw [if_neg ht]
      simp only [List.cons_append]
      rw [cbnr_check, cbnr_update, cbnr_startTranslate,
        ih (idx + 1) (t + trDur idx) (t :: seen) suffix hs]
      simp

theorem stops_loop_some (trDur : Nat → Nat) :
    ∀ k idx t t2 (suffix : List Ev),
      (translateLoopEv trDur k idx t).2 = some t2 →
      stopsOnFailedCheck suffix = true →
      stopsOnFailedCheck ((translateLoopEv trDur k idx t).1 ++ suffix)
        = true := by
  intro k
  induction k with
  | zero =>
    intro idx t t2 suffix _ hsuf
    rw [translateLoopEv]
    simpa using hsuf
  | succ k ih =>
    intro idx t t2 suffix h2 hsuf
    rw [translateLoopEv] at h2 ⊢
    by_cases ht : t > TIME_LIMIT
    · rw [if_pos ht] at h2; cases h2
    · rw [if_neg ht] at h2 ⊢
      simp only [List.cons_append]
      rw [stops_check, if_neg ht, stops_update, stops_startTranslate]
      exact ih (idx + 1) (t + trDur idx) t2 suffix h2 hsuf

theorem stops_loop_none (trDur : Nat → Nat) :
    ∀ k idx t,
      (translateLoopEv trDur k idx t).2 = none →
      stopsOnFailedCheck (translateLoopEv trDur k idx t).1 = true := by
  intro k
  induction k with
  | zero => intro idx t h; cases h
  | succ k ih =>
    intro idx t h
    rw [translateLoopEv] at h ⊢
    by_cases ht : t > TIME_LIMIT
    · rw [if_pos ht]
      rw [stops_check, if_pos ht]
      exact decide_eq_true rfl
    · rw [if_neg ht] at h ⊢
      rw [stops_check, if_neg ht, stops_update, stops_startTranslate]
      exact ih (idx + 1) (t + trDur idx) h

/-! ## Claim theorems for the orchestrator -/

/-- C4 fails on the code: the deadline is checked before Extract, before
Chunk, before the Translate stage and before each chunk's translation,
but there is no `check_timeout()` between the last chunk translation and
the Render stage (`create_pdf_from_text`).  With a single chunk whose
translation takes 700s of the 600s budget, Render is started at elapsed
700 with no deadline check at that elapsed time, and the job completes
instead of failing. -/
theorem process_job_no_check_before_render :
    ¬ ∀ (fileExists : Bool) (pages : List (List Char))
        (extractDur renderDur : Nat) (trDur : Nat → Nat),
        checksBefore isWorkEv []
          (process_translation_job fileExists pages extractDur renderDur
            trDur) = true ∧
        stopsOnFailedCheck
          (process_translation_job fileExists pages extractDur renderDur
            trDur) = true := by
  intro h
  have h1 := (h true [List.replicate 60 'a'] 0 0 (fun _ => 700)).1
  have h2 : checksBefore isWorkEv []
      (process_translation_job true [List.replicate 60 'a'] 0 0
        (fun _ => 700)) = false := by decide
  rw [h2] at h1
  cases h1

/-- C4 amended: on every run, the elapsed-time check is performed before
Extract, before Chunk, before the Translate stage and before each
individual chunk's translation — though not before Render — and whenever
a performed check finds the deadline exceeded, the trace ends immediately
with `fail(id, timeout message)` and no further stage or chunk work is
issued. -/
theorem process_job_checks_amended (fileExists : Bool)
    (pages : List (List Char)) (extractDur renderDur : Nat)
    (trDur : Nat → Nat) :
    checksBefore isNonRenderWorkEv []
      (process_translation_job fileExists pages extractDur renderDur trDur)
        = true ∧
    stopsOnFailedCheck
      (process_translation_job fileExists pages extractDur renderDur trDur)
        = true := by
  unfold process_translation_job
  rw [if_neg (by decide : ¬ ((0:Nat) > TIME_LIMIT))]
  by_cases hfe : fileExists = false
  · rw [if_pos hfe]
    exact ⟨rfl, rfl⟩
  · rw [if_neg hfe]
    by_cases hext : extractDur > TIME_LIMIT
    · rw [if_pos hext]
      constructor
      · rfl
      · rw [stops_check, if_neg (by decide), stops_update,
          stops_startExtract, stops_check, if_pos hext]
        exact decide_eq_true rfl
    · rw [if_neg hext]
      by_cases hshort : (pages.map List.length).sum < 50
      · rw [if_pos hshort]
        constructor
        · rw [cbnr_check, cbnr_update, cbnr_startExtract, cbnr_check,
            cbnr_fail, cbnr_nil]
          simp
        · rw [stops_check, if_neg (by decide), stops_update,
            stops_startExtract, stops_check, if_neg hext, stops_fail,
            stops_nil]
      · rw [if_neg hshort]
        cases hch : chunk_pages pages with
        | error e =>
          dsimp only
          constructor
          · rw [cbnr_check, cbnr_update, cbnr_startExtract, cbnr_check,
              cbnr_update, cbnr_startChunk, cbnr_fail, cbnr_nil]
            simp
          · rw [stops_check, if_neg (by decide), stops_update,
              stops_startExtract, stops_check, if_neg hext, stops_update,
              stops_startChunk, stops_fail, stops_nil]
        | ok chunks =>
          dsimp only
          rw [if_neg hext]
          simp only [List.cons_append]
          constructor
          · rw [cbnr_check, cbnr_update, cbnr_startExtract, cbnr_check,
              cbnr_update, cbnr_startChunk, cbnr_check, cbnr_update]
            rw [cbnr_loop trDur chunks.length 1 extractDur _ _ ?hsuf]
            · simp
            case hsuf =>
              intro seen'
              cases hl : (translateLoopEv trDur chunks.length 1
                  extractDur).2 with
              | none => rfl
              | some t2 => rfl
          · rw [stops_check, if_neg (by decide), stops_update,
              stops_startExtract, stops_check, if_neg hext, stops_update,
              stops_startChunk, stops_check, if_neg hext, stops_update]
            cases hl : (translateLoopEv trDur chunks.length 1
                extractDur).2 with
            | none =>
              dsimp only
              rw [List.append_nil]
              exact stops_loop_none trDur chunks.length 1 extractDur hl
            | some t2 =>
              dsimp only
              exact stops_loop_some trDur chunks.length 1 extractDur t2 _
                hl rfl

end PdfTranslator
